import Mathlib

/-!
Verification development for the holoheart_mvp backend core.

Shallow embedding of the components described by the specification:
rate limiter (`ImprovedRateLimiter.acquire`), retrying gateway
(`ImprovedRateLimiter.execute_with_retry`), streaming chat orchestrator
(`KimiAPI.process_stream_chat`), text segmenter (`find_sentence_end` and the
segment extraction in `router.event_generator`), text splitter
(`split_text_for_tts`), and the audio queue manager (`AudioManager`).

Real-time clock readings are modelled as rational-number inputs supplied by
the environment; machine floats of the source are modelled as rationals.
-/

namespace RateLimiter

/-- State of `ImprovedRateLimiter` (kimi_api.py lines 29-44): the token
bucket fields.  `tokens` is an integer as in Python; `rate_limit` is the
capacity.  Times are rationals standing for `time.time()` float readings. -/
structure Bucket where
  rate_limit : Nat
  time_window : ℚ
  tokens : Int
  last_refill_time : ℚ
  last_request_time : ℚ
deriving DecidableEq

/-- `__init__`: `tokens = rate_limit`, `last_refill_time = time.time()` (the
construction-time clock reading `t0`), `last_request_time = 0`. -/
def Bucket.init (rl : Nat) (tw : ℚ) (t0 : ℚ) : Bucket :=
  ⟨rl, tw, (rl : Int), t0, 0⟩

/-- Python `int(q)` on a float: truncation toward zero.  For a rational
this is `num / den` with integer division toward zero. -/
def pyTrunc (q : ℚ) : Int :=
  Int.tdiv q.num (q.den : Int)

/-- `new_tokens = int(time_passed / time_window * rate_limit)`
(kimi_api.py line 61). -/
def Bucket.newTokens (b : Bucket) (now : ℚ) : Int :=
  pyTrunc ((now - b.last_refill_time) / b.time_window * (b.rate_limit : ℚ))

/-- The refill step of `acquire` (kimi_api.py lines 59-65): when
`new_tokens` is positive, `tokens = min(rate_limit, tokens + new_tokens)`
and the refill clock is advanced to `now`. -/
def Bucket.refill (b : Bucket) (now : ℚ) : Bucket :=
  if 0 < b.newTokens now then
    ⟨b.rate_limit, b.time_window, min (b.rate_limit : Int) (b.tokens + b.newTokens now), now,
      b.last_request_time⟩
  else b

/-- The effective clock value used by one `acquire` call: if the minimum
inter-request spacing is violated the code sleeps and re-reads the clock
(`tAfterSleep`), otherwise it keeps the entry reading (`tEntry`). -/
def Bucket.acquireTime (b : Bucket) (tEntry tAfterSleep : ℚ) : ℚ :=
  let min_interval := b.time_window / (b.rate_limit : ℚ)
  if tEntry - b.last_request_time < min_interval then tAfterSleep else tEntry

/-- `ImprovedRateLimiter.acquire` (kimi_api.py lines 46-71).  The three
clock parameters are the successive `time.time()` readings: at entry, after
the spacing sleep, and at the moment a token is granted.  Returns the new
bucket and the boolean result. -/
def Bucket.acquire (b : Bucket) (tEntry tAfterSleep tGrant : ℚ) : Bucket × Bool :=
  if 0 < (b.refill (b.acquireTime tEntry tAfterSleep)).tokens then
    (⟨(b.refill (b.acquireTime tEntry tAfterSleep)).rate_limit,
      (b.refill (b.acquireTime tEntry tAfterSleep)).time_window,
      (b.refill (b.acquireTime tEntry tAfterSleep)).tokens - 1,
      (b.refill (b.acquireTime tEntry tAfterSleep)).last_refill_time, tGrant⟩, true)
  else (b.refill (b.acquireTime tEntry tAfterSleep), false)

/-- A sequence of `acquire` calls, each with its own triple of clock
readings. -/
def Bucket.acquireSeq (b : Bucket) : List (ℚ × ℚ × ℚ) → Bucket
  | [] => b
  | (t, t', t'') :: rest => Bucket.acquireSeq ((b.acquire t t' t'').1) rest

theorem Bucket.refill_rate_limit (b : Bucket) (now : ℚ) :
    (b.refill now).rate_limit = b.rate_limit := by
  unfold Bucket.refill
  split <;> rfl

theorem Bucket.refill_bounds (b : Bucket) (now : ℚ)
    (h0 : 0 ≤ b.tokens) (h1 : b.tokens ≤ (b.rate_limit : Int)) :
    0 ≤ (b.refill now).tokens ∧ (b.refill now).tokens ≤ ((b.refill now).rate_limit : Int) := by
  rw [Bucket.refill_rate_limit]
  unfold Bucket.refill
  split
  · rename_i hpos
    refine ⟨?_, ?_⟩
    · simp only
      rw [le_min_iff]
      constructor
      · exact Int.ofNat_nonneg b.rate_limit
      · omega
    · simp only
      exact min_le_left _ _
  · exact ⟨h0, h1⟩

theorem Bucket.acquire_rate_limit (b : Bucket) (t t' t'' : ℚ) :
    (b.acquire t t' t'').1.rate_limit = b.rate_limit := by
  unfold Bucket.acquire
  split
  · exact b.refill_rate_limit _
  · exact b.refill_rate_limit _

theorem Bucket.acquire_bounds (b : Bucket) (t t' t'' : ℚ)
    (h0 : 0 ≤ b.tokens) (h1 : b.tokens ≤ (b.rate_limit : Int)) :
    0 ≤ (b.acquire t t' t'').1.tokens ∧
      (b.acquire t t' t'').1.tokens ≤ ((b.acquire t t' t'').1.rate_limit : Int) := by
  have hr := b.refill_bounds (b.acquireTime t t') h0 h1
  rw [Bucket.acquire_rate_limit]
  unfold Bucket.acquire
  rw [Bucket.refill_rate_limit] at hr
  split
  · rename_i hpos
    simp only
    omega
  · exact hr

theorem Bucket.acquireSeq_bounds (b : Bucket) (ts : List (ℚ × ℚ × ℚ))
    (h0 : 0 ≤ b.tokens) (h1 : b.tokens ≤ (b.rate_limit : Int)) :
    0 ≤ (b.acquireSeq ts).tokens ∧
      (b.acquireSeq ts).tokens ≤ ((b.acquireSeq ts).rate_limit : Int) := by
  induction ts generalizing b with
  | nil => exact ⟨h0, h1⟩
  | cons hd tl ih =>
    obtain ⟨t, t', t''⟩ := hd
    have hstep := b.acquire_bounds t t' t'' h0 h1
    exact ih _ hstep.1 hstep.2

end RateLimiter

/-- C2: For every initial capacity (`rate_limit`) and every sequence of
`acquire()` calls with arbitrary elapsed real-time values between them, the
bucket's token count stays within `[0, capacity]`; the refill step never
raises the count above capacity, and a token is consumed exactly when the
refilled count is positive (`acquire` returns `true` iff a token was
available after refill, and then decrements it by one). -/
theorem C2_bucket_tokens_in_range (rl : Nat) (tw t0 : ℚ) (ts : List (ℚ × ℚ × ℚ)) :
    (0 ≤ ((RateLimiter.Bucket.init rl tw t0).acquireSeq ts).tokens ∧
      ((RateLimiter.Bucket.init rl tw t0).acquireSeq ts).tokens ≤ (rl : Int)) ∧
    (∀ b : RateLimiter.Bucket, ∀ now : ℚ,
      b.tokens ≤ (b.rate_limit : Int) → (b.refill now).tokens ≤ (b.rate_limit : Int)) ∧
    (∀ b : RateLimiter.Bucket, ∀ t t' t'' : ℚ,
      ((b.acquire t t' t'').2 = true ↔ 0 < (b.refill (b.acquireTime t t')).tokens) ∧
      (b.acquire t t' t'').1.tokens =
        (if 0 < (b.refill (b.acquireTime t t')).tokens then
          (b.refill (b.acquireTime t t')).tokens - 1
        else (b.refill (b.acquireTime t t')).tokens)) := by
  refine ⟨?_, ?_, ?_⟩
  · have h := (RateLimiter.Bucket.init rl tw t0).acquireSeq_bounds ts
      (by simp [RateLimiter.Bucket.init]) (by simp [RateLimiter.Bucket.init])
    have hrl : ((RateLimiter.Bucket.init rl tw t0).acquireSeq ts).rate_limit = rl := by
      have : ∀ (b : RateLimiter.Bucket) (l : List (ℚ × ℚ × ℚ)),
          (b.acquireSeq l).rate_limit = b.rate_limit := by
        intro b l
        induction l generalizing b with
        | nil => rfl
        | cons hd tl ih =>
          obtain ⟨t, t', t''⟩ := hd
          rw [RateLimiter.Bucket.acquireSeq, ih, RateLimiter.Bucket.acquire_rate_limit]
      rw [this, RateLimiter.Bucket.init]
    rw [hrl] at h
    exact h
  · intro b now h1
    unfold RateLimiter.Bucket.refill
    split
    · exact min_le_left _ _
    · exact h1
  · intro b t t' t''
    constructor
    · unfold RateLimiter.Bucket.acquire
      split
      · rename_i hpos
        simp [hpos]
      · rename_i hpos
        simp [hpos]
    · unfold RateLimiter.Bucket.acquire
      split
      · rename_i hpos
        simp [hpos]
      · rename_i hpos
        simp [hpos]

namespace Retry

/-- The two observable attributes of an exception raised by the wrapped
operation, as inspected by `execute_with_retry` (kimi_api.py lines 96-113):
`rateLimitClass` models the test `"rate_limit" in str(e).lower()`, and
`suggestedWait` models the capture of the regex `after (\d+) seconds` on
`str(e)` (in whole seconds). -/
structure ApiError where
  rateLimitClass : Bool
  suggestedWait : Option Nat
deriving DecidableEq

/-- Result of one invocation of the wrapped operation `func`. -/
inductive CallResult where
  | ok
  | err (e : ApiError)
deriving DecidableEq

/-- Log of what one loop iteration of `execute_with_retry` did:
a failed token wait followed by `time.sleep(retry_delay * (attempt+1))` and
a retry; a failed token wait on the final attempt (raises); or an
invocation of the wrapped operation, with the backoff sleep that followed
it (`none` when the call returned or its error was re-raised). -/
inductive StepLog where
  | tokenRetry (attempt : Nat) (slept : ℚ)
  | tokenTimeoutFinal (attempt : Nat)
  | called (attempt : Nat) (result : CallResult) (sleptAfter : Option ℚ)
deriving DecidableEq

/-- How `execute_with_retry` terminated, with the number of loop
iterations (attempts) consumed. -/
inductive RetryOutcome where
  | success (attemptsUsed : Nat)
  | tokenTimeout (attemptsUsed : Nat)
  | raisedErr (e : ApiError) (attemptsUsed : Nat)
deriving DecidableEq

def RetryOutcome.attemptsUsed : RetryOutcome → Nat
  | .success n => n
  | .tokenTimeout n => n
  | .raisedErr _ n => n

/-- The backoff sleep after a retried rate-limit failure (kimi_api.py lines
101-116): `suggested + 0.5` when the error message carries a suggestion,
otherwise `max(1.0, retry_delay * (2 ** attempt))`. -/
def backoffWait (retryDelay : ℚ) (attempt : Nat) (e : ApiError) : ℚ :=
  match e.suggestedWait with
  | some s => (s : ℚ) + 1 / 2
  | none => max 1 (retryDelay * 2 ^ attempt)

/-- The loop body of `execute_with_retry` (kimi_api.py lines 82-118).
`tokenOk a` is the result of `wait_for_token()` during iteration `a`, and
`call a` the result of `func` there.  `fuel` bounds the remaining
iterations; the entry point supplies `maxRetries + 1`, which is exact for
the Python `for attempt in range(max_retries + 1)` loop. -/
def retryLoop (retryDelay : ℚ) (maxRetries : Nat) (tokenOk : Nat → Bool)
    (call : Nat → CallResult) : Nat → Nat → List StepLog × RetryOutcome
  | attempt, 0 => ([], .tokenTimeout attempt)
  | attempt, fuel + 1 =>
    if tokenOk attempt then
      match call attempt with
      | .ok => ([.called attempt .ok none], .success (attempt + 1))
      | .err e =>
        if e.rateLimitClass = true ∧ attempt < maxRetries then
          (StepLog.called attempt (.err e) (some (backoffWait retryDelay attempt e)) ::
              (retryLoop retryDelay maxRetries tokenOk call (attempt + 1) fuel).1,
            (retryLoop retryDelay maxRetries tokenOk call (attempt + 1) fuel).2)
        else ([.called attempt (.err e) none], .raisedErr e (attempt + 1))
    else
      if attempt = maxRetries then ([.tokenTimeoutFinal attempt], .tokenTimeout (attempt + 1))
      else
        (StepLog.tokenRetry attempt (retryDelay * (attempt + 1)) ::
            (retryLoop retryDelay maxRetries tokenOk call (attempt + 1) fuel).1,
          (retryLoop retryDelay maxRetries tokenOk call (attempt + 1) fuel).2)

/-- `ImprovedRateLimiter.execute_with_retry` (kimi_api.py lines 82-118). -/
def execute_with_retry (retryDelay : ℚ) (maxRetries : Nat) (tokenOk : Nat → Bool)
    (call : Nat → CallResult) : List StepLog × RetryOutcome :=
  retryLoop retryDelay maxRetries tokenOk call 0 (maxRetries + 1)

theorem retryLoop_attempts_le (rd : ℚ) (mr : Nat) (tokenOk : Nat → Bool)
    (call : Nat → CallResult) (fuel attempt : Nat) :
    (retryLoop rd mr tokenOk call attempt fuel).2.attemptsUsed ≤ attempt + fuel := by
  induction fuel generalizing attempt with
  | zero => simp [retryLoop, RetryOutcome.attemptsUsed]
  | succ n ih =>
    rw [retryLoop]
    split
    · split
      · simp only [RetryOutcome.attemptsUsed]
        omega
      · split
        · dsimp only
          have := ih (attempt + 1)
          omega
        · simp only [RetryOutcome.attemptsUsed]
          omega
    · split
      · simp only [RetryOutcome.attemptsUsed]
        omega
      · dsimp only
        have := ih (attempt + 1)
        omega

theorem retryLoop_exhausts (rd : ℚ) (mr : Nat) (tokenOk : Nat → Bool)
    (call : Nat → CallResult) (fuel attempt : Nat) (hfa : attempt + fuel = mr + 1) :
    (∀ n, (retryLoop rd mr tokenOk call attempt fuel).2 = .tokenTimeout n → n = mr + 1) ∧
    (∀ e n, (retryLoop rd mr tokenOk call attempt fuel).2 = .raisedErr e n →
      e.rateLimitClass = true → n = mr + 1) := by
  induction fuel generalizing attempt with
  | zero =>
    constructor
    · intro n hn
      simp [retryLoop] at hn
      omega
    · intro e n hn
      simp [retryLoop] at hn
  | succ m ih =>
    rw [retryLoop]
    split
    · split
      · constructor
        · intro n hn
          simp at hn
        · intro e n hn
          simp at hn
      · split
        · exact ih (attempt + 1) (by omega)
        · rename_i e hcond
          constructor
          · intro n hn
            simp at hn
          · intro e' n hn hrl
            simp only [RetryOutcome.raisedErr.injEq] at hn
            obtain ⟨rfl, rfl⟩ := hn
            rw [hrl] at hcond
            simp only [true_and, not_lt] at hcond
            omega
    · split
      · rename_i heq
        constructor
        · intro n hn
          simp only [RetryOutcome.tokenTimeout.injEq] at hn
          omega
        · intro e n hn
          simp at hn
      · exact ih (attempt + 1) (by omega)

end Retry

/-- C3 counterexample: the claim "raises only after all attempts are
exhausted" fails for a wrapped operation whose first failure is not
rate-limit-class: with `max_retries = 3` the error is re-raised after a
single attempt, not after the 4 permitted attempts. -/
theorem C3_counterexample_immediate_raise :
    (Retry.execute_with_retry 1 3 (fun _ => true)
        (fun _ => .err ⟨false, none⟩)).2 =
      .raisedErr ⟨false, none⟩ 1 ∧ (1 : Nat) ≠ 3 + 1 := by
  constructor
  · rfl
  · decide

/-- C3 (amended): `execute_with_retry` performs at most `max_retries + 1`
attempts, and a token-wait timeout or a rate-limit-class error is surfaced
to the caller only after all `max_retries + 1` attempts are exhausted;
a non-rate-limit-class error may be re-raised earlier. -/
theorem C3_retry_attempt_bound (rd : ℚ) (mr : Nat) (tokenOk : Nat → Bool)
    (call : Nat → Retry.CallResult) :
    (Retry.execute_with_retry rd mr tokenOk call).2.attemptsUsed ≤ mr + 1 ∧
    (∀ n, (Retry.execute_with_retry rd mr tokenOk call).2 = .tokenTimeout n → n = mr + 1) ∧
    (∀ e n, (Retry.execute_with_retry rd mr tokenOk call).2 = .raisedErr e n →
      e.rateLimitClass = true → n = mr + 1) := by
  refine ⟨?_, ?_⟩
  · have := Retry.retryLoop_attempts_le rd mr tokenOk call (mr + 1) 0
    simpa [Retry.execute_with_retry] using this
  · exact Retry.retryLoop_exhausts rd mr tokenOk call (mr + 1) 0 (by omega)

/-- C3 witness: a concrete run in which every attempt fails with a
rate-limit-class error uses exactly `max_retries + 1 = 3` attempts and only
then surfaces the error. -/
theorem C3_retry_attempt_bound_witness :
    (Retry.execute_with_retry 1 2 (fun _ => true)
        (fun _ => .err ⟨true, none⟩)).2 = .raisedErr ⟨true, none⟩ 3 ∧ (3 : Nat) = 2 + 1 := by
  constructor
  · rfl
  · exact (C3_retry_attempt_bound 1 2 (fun _ => true) (fun _ => .err ⟨true, none⟩)).2.2
      ⟨true, none⟩ 3 (by rfl) (by rfl)

namespace Orchestrator

/-- One tool call of the probe response (`choice.message.tool_calls`
entry): its id, function name and raw JSON-text arguments.
`argumentsValid` records whether `json.loads(tool_call.function.arguments)`
succeeds (kimi_api.py line 323). -/
structure ToolCall where
  tcId : String
  name : String
  arguments : String
  argumentsValid : Bool
deriving DecidableEq

/-- A chat message.  `toolCallId` and `toolName` are the extra fields of a
role-"tool" message (kimi_api.py lines 331-336); they are empty for other
roles. -/
structure Message where
  role : String
  content : String
  toolCallId : String
  toolName : String
deriving DecidableEq

/-- Outcome of the non-streaming probe call (kimi_api.py lines 299-310):
either the API call raised, or it completed with a finish reason, a
message content, and the requested tool calls. -/
inductive ProbeOutcome where
  | raised (msg : String)
  | completed (finishReason : String) (content : String) (toolCalls : List ToolCall)

/-- Outcome of the final streaming call (kimi_api.py lines 349-366):
either creating the stream raised, or the stream yielded the listed delta
contents and then (optionally) failed mid-stream with an exception. -/
inductive StreamOutcome where
  | raised (msg : String)
  | deltas (contents : List String) (midFailure : Option String)

/-- The event dictionaries yielded by `process_stream_chat`. -/
inductive Event where
  | start (id : String)
  | chunk (id : String) (content : String)
  | toolCall (id : String) (content : String)
  | error (id : String) (msg : String)
  | endEv (id : String)
deriving DecidableEq

def Event.isStart : Event → Bool
  | .start _ => true
  | _ => false

def Event.isEnd : Event → Bool
  | .endEv _ => true
  | _ => false

def Event.isError : Event → Bool
  | .error _ _ => true
  | _ => false

/-- The error-event message `f"API调用错误: {str(e)}"` (kimi_api.py line
369). -/
def apiErrMsg (m : String) : String := "API调用错误: " ++ m

/-- The tool-call notice content (kimi_api.py line 315). -/
def searchNotice : String := "正在搜索相关信息..."

/-- The error string produced for an unrecognized tool name (kimi_api.py
line 328); the source wraps the name in single quotes. -/
def unknownToolMsg (name : String) : String :=
  "Error: unable to find tool by name " ++ name

/-- `json.dumps` applied to a tool result.  For `$web_search` the result is
the parsed arguments object, whose dump round-trips to the raw arguments
text; for an unknown name the result is the error string, which dumps to
its quoted form. -/
def jsonDumpResult (tc : ToolCall) : String :=
  if tc.name = "$web_search" then tc.arguments
  else "\"" ++ unknownToolMsg tc.name ++ "\""

/-- The role-"tool" message appended per tool call (kimi_api.py lines
331-336). -/
def toolMessage (tc : ToolCall) : Message :=
  ⟨"tool", jsonDumpResult tc, tc.tcId, tc.name⟩

/-- The assistant message `choice.message.model_dump()` appended before the
tool results (kimi_api.py line 318); it carries the raw tool-call
request. -/
def assistantMessage (content : String) : Message :=
  ⟨"assistant", content, "", ""⟩

/-- The tool loop (kimi_api.py lines 321-336): for each call, parse the
arguments (`json.loads` raises on invalid text, aborting the loop), then
dispatch by name and append the tool message.  Returns the extended
message list and the message of the exception, if one was raised. -/
def processToolCalls : List Message → List ToolCall → List Message × Option String
  | msgs, [] => (msgs, none)
  | msgs, tc :: rest =>
    if tc.argumentsValid then processToolCalls (msgs ++ [toolMessage tc]) rest
    else (msgs, some "json decode failure")

/-- Events yielded while consuming the final streaming response
(kimi_api.py lines 349-371): a `chunk` per non-empty delta content, then an
`error` if the stream raised. -/
def runStream (id : String) (so : StreamOutcome) : List Event :=
  match so with
  | .raised m => [.error id (apiErrMsg m)]
  | .deltas cs mid =>
    cs.filterMap (fun c => if c = "" then none else some (Event.chunk id c)) ++
      (match mid with
        | some m => [Event.error id (apiErrMsg m)]
        | none => [])

/-- The body of `process_stream_chat` between the `start` and `end` events
(kimi_api.py lines 294-376): the events yielded, the final message list,
and whether control reached the final streaming API call. -/
def turnBody (id : String) (messages : List Message) (probe : ProbeOutcome)
    (stream : List Message → StreamOutcome) : List Event × List Message × Bool :=
  match probe with
  | .raised m => ([Event.error id (apiErrMsg m)], messages, false)
  | .completed finishReason content toolCalls =>
    if finishReason = "tool_calls" then
      match processToolCalls (messages ++ [assistantMessage content]) toolCalls with
      | (msgs2, some em) =>
        ([Event.toolCall id searchNotice, Event.error id (apiErrMsg em)], msgs2, false)
      | (msgs2, none) =>
        (Event.toolCall id searchNotice :: runStream id (stream msgs2), msgs2, true)
    else
      (runStream id (stream messages), messages, true)

/-- Result of one streaming turn. -/
structure TurnResult where
  events : List Event
  messages : List Message
  streamCalled : Bool

/-- `KimiAPI.process_stream_chat` (kimi_api.py lines 285-380): yields
`start`, runs the probe / tool / stream body with all exceptions converted
to `error` events, and yields `end` from the `finally` block. -/
def process_stream_chat (id : String) (messages : List Message) (probe : ProbeOutcome)
    (stream : List Message → StreamOutcome) : TurnResult :=
  ⟨Event.start id :: ((turnBody id messages probe stream).1 ++ [Event.endEv id]),
    (turnBody id messages probe stream).2.1,
    (turnBody id messages probe stream).2.2⟩

theorem runStream_mem (id : String) (so : StreamOutcome) (e : Event)
    (he : e ∈ runStream id so) : e.isStart = false ∧ e.isEnd = false := by
  cases so with
  | raised m =>
    simp only [runStream, List.mem_singleton] at he
    subst he
    exact ⟨rfl, rfl⟩
  | deltas cs mid =>
    simp only [runStream, List.mem_append] at he
    rcases he with he | he
    · obtain ⟨c, _, hc⟩ := List.mem_filterMap.mp he
      by_cases hcc : c = "" <;> simp [hcc] at hc
      subst hc
      exact ⟨rfl, rfl⟩
    · cases mid with
      | some m =>
        simp only [List.mem_singleton] at he
        subst he
        exact ⟨rfl, rfl⟩
      | none => simp at he

theorem turnBody_mem (id : String) (messages : List Message) (probe : ProbeOutcome)
    (stream : List Message → StreamOutcome) (e : Event)
    (he : e ∈ (turnBody id messages probe stream).1) :
    e.isStart = false ∧ e.isEnd = false := by
  cases probe with
  | raised m =>
    simp only [turnBody, List.mem_singleton] at he
    subst he
    exact ⟨rfl, rfl⟩
  | completed finishReason content toolCalls =>
    simp only [turnBody] at he
    split at he
    · split at he
      · simp only [List.mem_cons, List.not_mem_nil, or_false] at he
        rcases he with rfl | rfl
        · exact ⟨rfl, rfl⟩
        · exact ⟨rfl, rfl⟩
      · simp only [List.mem_cons] at he
        rcases he with rfl | he
        · exact ⟨rfl, rfl⟩
        · exact runStream_mem _ _ _ he
    · exact runStream_mem _ _ _ he

theorem countP_eq_zero_of_mem {p : Event → Bool} {l : List Event}
    (h : ∀ e ∈ l, p e = false) : l.countP p = 0 := by
  induction l with
  | nil => rfl
  | cons a t ih =>
    have ha := h a (List.mem_cons_self a t)
    have ht := ih (fun e he => h e (List.mem_cons_of_mem a he))
    simp [List.countP_cons, ha, ht]

end Orchestrator

/-- C1: for every streaming turn (success path, tool-call path, or a turn
failing at the probe, in the tool loop, or mid-stream), the emitted event
sequence begins with exactly one `start` event and terminates with exactly
one `end` event; in particular a turn that emits an `error` event still
reaches `end` afterwards. -/
theorem C1_stream_start_end (id : String) (messages : List Orchestrator.Message)
    (probe : Orchestrator.ProbeOutcome)
    (stream : List Orchestrator.Message → Orchestrator.StreamOutcome) :
    (Orchestrator.process_stream_chat id messages probe stream).events.head? =
        some (Orchestrator.Event.start id) ∧
    (Orchestrator.process_stream_chat id messages probe stream).events.getLast? =
        some (Orchestrator.Event.endEv id) ∧
    (Orchestrator.process_stream_chat id messages probe stream).events.countP
        Orchestrator.Event.isStart = 1 ∧
    (Orchestrator.process_stream_chat id messages probe stream).events.countP
        Orchestrator.Event.isEnd = 1 ∧
    (∀ m : String, Orchestrator.Event.error id m ∈
        (Orchestrator.process_stream_chat id messages probe stream).events →
      (Orchestrator.process_stream_chat id messages probe stream).events.getLast? =
        some (Orchestrator.Event.endEv id)) := by
  have hB := Orchestrator.turnBody_mem id messages probe stream
  have hlast : (Orchestrator.process_stream_chat id messages probe stream).events.getLast? =
      some (Orchestrator.Event.endEv id) := by
    show (Orchestrator.Event.start id ::
        ((Orchestrator.turnBody id messages probe stream).1 ++
          [Orchestrator.Event.endEv id])).getLast? = some (Orchestrator.Event.endEv id)
    rw [← List.cons_append]
    exact List.getLast?_concat _
  refine ⟨rfl, hlast, ?_, ?_, fun m _ => hlast⟩
  · show (Orchestrator.Event.start id ::
        ((Orchestrator.turnBody id messages probe stream).1 ++
          [Orchestrator.Event.endEv id])).countP Orchestrator.Event.isStart = 1
    rw [List.countP_cons, List.countP_append]
    rw [Orchestrator.countP_eq_zero_of_mem (fun e he => (hB e he).1)]
    rfl
  · show (Orchestrator.Event.start id ::
        ((Orchestrator.turnBody id messages probe stream).1 ++
          [Orchestrator.Event.endEv id])).countP Orchestrator.Event.isEnd = 1
    rw [List.countP_cons, List.countP_append]
    rw [Orchestrator.countP_eq_zero_of_mem (fun e he => (hB e he).2)]
    rfl

/-- C1 witness: a turn whose probe call raises emits `error` and still
terminates with `end`. -/
theorem C1_stream_start_end_witness :
    (Orchestrator.process_stream_chat "r" [] (.raised "boom")
        (fun _ => .deltas [] none)).events.getLast? =
      some (Orchestrator.Event.endEv "r") :=
  (C1_stream_start_end "r" [] (.raised "boom") (fun _ => .deltas [] none)).2.2.2.2
    (Orchestrator.apiErrMsg "boom") (by decide)

namespace Orchestrator

theorem processToolCalls_all_valid (tcs : List ToolCall) (msgs : List Message)
    (h : ∀ tc ∈ tcs, tc.argumentsValid = true) :
    processToolCalls msgs tcs = (msgs ++ tcs.map toolMessage, none) := by
  induction tcs generalizing msgs with
  | nil => simp [processToolCalls]
  | cons tc rest ih =>
    rw [processToolCalls, if_pos (h tc (List.mem_cons_self tc rest))]
    rw [ih (msgs ++ [toolMessage tc]) (fun x hx => h x (List.mem_cons_of_mem tc hx))]
    simp

end Orchestrator

/-- C5 counterexample: the claim quantifies over every turn whose probe
finish indicator is `tool_calls` with an unrecognized tool name, but when
the call's argument text is not valid JSON, `json.loads` raises before the
name is examined: no tool-result message is appended and the turn never
reaches the final streaming call (it still ends with `error` then `end`). -/
theorem C5_counterexample_invalid_arguments :
    (Orchestrator.process_stream_chat "r" []
        (.completed "tool_calls" "" [⟨"t1", "nonexistent_tool", "oops", false⟩])
        (fun _ => .deltas [] none)).streamCalled = false ∧
    (Orchestrator.process_stream_chat "r" []
        (.completed "tool_calls" "" [⟨"t1", "nonexistent_tool", "oops", false⟩])
        (fun _ => .deltas [] none)).messages = [Orchestrator.assistantMessage ""] := by
  constructor
  · rfl
  · rfl

/-- C5 (amended): for every turn whose probe finish indicator is
`tool_calls` and all of whose tool-call argument texts parse as JSON, the
turn completes without raising: unrecognized names resolve to an explicit
error string recorded as the tool message's content, exactly one assistant
message (the raw tool-call request) plus one tool-result message per call
are appended to the history, and the turn proceeds to the final streaming
call and terminates with `end`. -/
theorem C5_unknown_tool_nonfatal (id : String) (msgs : List Orchestrator.Message)
    (content : String) (tcs : List Orchestrator.ToolCall)
    (stream : List Orchestrator.Message → Orchestrator.StreamOutcome)
    (hvalid : ∀ tc ∈ tcs, tc.argumentsValid = true) :
    (Orchestrator.process_stream_chat id msgs
        (.completed "tool_calls" content tcs) stream).streamCalled = true ∧
    (Orchestrator.process_stream_chat id msgs
        (.completed "tool_calls" content tcs) stream).messages =
      msgs ++ Orchestrator.assistantMessage content :: tcs.map Orchestrator.toolMessage ∧
    (Orchestrator.process_stream_chat id msgs
        (.completed "tool_calls" content tcs) stream).events.getLast? =
      some (Orchestrator.Event.endEv id) ∧
    (∀ tc ∈ tcs, tc.name ≠ "$web_search" →
      (Orchestrator.toolMessage tc).role = "tool" ∧
      (Orchestrator.toolMessage tc).content =
        "\"" ++ Orchestrator.unknownToolMsg tc.name ++ "\"") := by
  have hpt := Orchestrator.processToolCalls_all_valid tcs
    (msgs ++ [Orchestrator.assistantMessage content]) hvalid
  have hbody : Orchestrator.turnBody id msgs (.completed "tool_calls" content tcs) stream =
      (Orchestrator.Event.toolCall id Orchestrator.searchNotice ::
          Orchestrator.runStream id
            (stream (msgs ++ [Orchestrator.assistantMessage content] ++
              tcs.map Orchestrator.toolMessage)),
        msgs ++ [Orchestrator.assistantMessage content] ++ tcs.map Orchestrator.toolMessage,
        true) := by
    rw [Orchestrator.turnBody, if_pos rfl, hpt]
  refine ⟨?_, ?_, ?_, ?_⟩
  · show (Orchestrator.turnBody id msgs (.completed "tool_calls" content tcs) stream).2.2 = true
    rw [hbody]
  · show (Orchestrator.turnBody id msgs (.completed "tool_calls" content tcs) stream).2.1 =
      msgs ++ Orchestrator.assistantMessage content :: tcs.map Orchestrator.toolMessage
    rw [hbody]
    simp
  · show (Orchestrator.Event.start id ::
        ((Orchestrator.turnBody id msgs (.completed "tool_calls" content tcs) stream).1 ++
          [Orchestrator.Event.endEv id])).getLast? = some (Orchestrator.Event.endEv id)
    rw [← List.cons_append]
    exact List.getLast?_concat _
  · intro tc _ hname
    refine ⟨rfl, ?_⟩
    show Orchestrator.jsonDumpResult tc = "\"" ++ Orchestrator.unknownToolMsg tc.name ++ "\""
    rw [Orchestrator.jsonDumpResult, if_neg hname]

/-- C5 witness: a concrete turn with one unrecognized tool call (valid
JSON arguments) reaches streaming, appends the assistant message and the
error-carrying tool message, and ends with `end`. -/
theorem C5_unknown_tool_nonfatal_witness :
    (Orchestrator.process_stream_chat "r" [] (.completed "tool_calls" "c"
        [⟨"t1", "nonexistent_tool", "null", true⟩])
        (fun _ => .deltas ["hi"] none)).streamCalled = true ∧
    (Orchestrator.process_stream_chat "r" [] (.completed "tool_calls" "c"
        [⟨"t1", "nonexistent_tool", "null", true⟩])
        (fun _ => .deltas ["hi"] none)).messages =
      [Orchestrator.assistantMessage "c",
        Orchestrator.toolMessage ⟨"t1", "nonexistent_tool", "null", true⟩] := by
  have h := C5_unknown_tool_nonfatal "r" [] "c"
    [⟨"t1", "nonexistent_tool", "null", true⟩] (fun _ => .deltas ["hi"] none)
    (by intro tc htc; simp at htc; rw [htc])
  exact ⟨h.1, by rw [h.2.1]; rfl⟩

namespace Segmenter

/-- The terminator set of `find_sentence_end` (text_cleaner.py line 132),
in source order. -/
def end_chars : List Char := ['。', '？', '！', '.', '?', '!']

/-- Python `str.find`: index of the first occurrence of `c`, `-1` when
absent. -/
def charFind : List Char → Char → Int
  | [], _ => -1
  | a :: rest, c =>
    if a = c then 0
    else if charFind rest c = -1 then -1 else charFind rest c + 1

/-- The `valid_positions` list of `find_sentence_end` (text_cleaner.py
lines 133-134): per-terminator first occurrences, with the `-1` entries
dropped. -/
def validPositions (s : List Char) : List Int :=
  (end_chars.map (charFind s)).filter (fun p => p != -1)

/-- `find_sentence_end` (text_cleaner.py lines 130-142): the minimum of
the valid positions when any exists; otherwise `len(text) - 1` when the
text is longer than 50 characters, else `-1`. -/
def find_sentence_end (s : List Char) : Int :=
  match validPositions s with
  | [] => if 50 < s.length then (s.length : Int) - 1 else -1
  | p :: ps => ps.foldl min p

/-- The segment-extraction step of `router.event_generator` (router.py
lines 210-214): when `find_sentence_end(accumulated_text) > 10` the
sentence `accumulated_text[:end+1]` is split off and the rest is kept as
the new buffer; otherwise nothing is produced. -/
def segmenterFeed (acc : List Char) : Option (List Char × List Char) :=
  if 10 < find_sentence_end acc then
    some (acc.take (find_sentence_end acc + 1).toNat,
      acc.drop (find_sentence_end acc + 1).toNat)
  else none

/-- The index of the earliest character of `acc` belonging to
`end_chars`, used to state what `find_sentence_end` computes. -/
def firstTermIdx : List Char → Option Nat
  | [] => none
  | c :: rest =>
    if end_chars.contains c then some 0 else (firstTermIdx rest).map (· + 1)

theorem charFind_dichotomy (s : List Char) (c : Char) :
    charFind s c = -1 ∨ 0 ≤ charFind s c := by
  induction s with
  | nil => exact Or.inl rfl
  | cons a rest ih =>
    by_cases hac : a = c
    · right
      simp [charFind, hac]
    · rcases ih with h | h
      · left
        simp [charFind, hac, h]
      · right
        rw [charFind, if_neg hac]
        split <;> omega

theorem mem_validPositions_nonneg (s : List Char) (y : Int)
    (hy : y ∈ validPositions s) : 0 ≤ y := by
  rw [validPositions, List.mem_filter] at hy
  obtain ⟨hmem, hne⟩ := hy
  obtain ⟨c, _, hc⟩ := List.mem_map.mp hmem
  rcases charFind_dichotomy s c with h | h
  · rw [← hc] at hne
    rw [h] at hne
    simp at hne
  · omega

theorem foldl_min_le_init (l : List Int) (x : Int) : l.foldl min x ≤ x := by
  induction l generalizing x with
  | nil => exact le_refl x
  | cons a t ih =>
    calc (a :: t).foldl min x = t.foldl min (min x a) := rfl
    _ ≤ min x a := ih (min x a)
    _ ≤ x := min_le_left x a

theorem foldl_min_le_mem (l : List Int) (x y : Int) (hy : y ∈ l) : l.foldl min x ≤ y := by
  induction l generalizing x with
  | nil => simp at hy
  | cons a t ih =>
    rcases List.mem_cons.mp hy with rfl | hmem
    · calc (y :: t).foldl min x = t.foldl min (min x y) := rfl
      _ ≤ min x y := foldl_min_le_init t (min x y)
      _ ≤ y := min_le_right x y
    · exact ih (min x a) hmem

theorem le_foldl_min (l : List Int) (x z : Int) (hx : z ≤ x)
    (hl : ∀ y ∈ l, z ≤ y) : z ≤ l.foldl min x := by
  induction l generalizing x with
  | nil => exact hx
  | cons a t ih =>
    exact ih (min x a) (le_min hx (hl a (List.mem_cons_self a t)))
      (fun y hy => hl y (List.mem_cons_of_mem a hy))

theorem foldl_min_eq_zero (p : Int) (ps : List Int) (hmem : (0 : Int) ∈ p :: ps)
    (hnn : ∀ y ∈ p :: ps, (0 : Int) ≤ y) : ps.foldl min p = 0 := by
  apply le_antisymm
  · rcases List.mem_cons.mp hmem with h | h
    · rw [← h]
      exact foldl_min_le_init ps 0
    · exact foldl_min_le_mem ps p 0 h
  · exact le_foldl_min ps p 0 (hnn p (List.mem_cons_self p ps))
      (fun y hy => hnn y (List.mem_cons_of_mem p hy))

theorem foldl_min_map_add_one (ps : List Int) (p : Int) :
    (ps.map (fun y => y + 1)).foldl min (p + 1) = ps.foldl min p + 1 := by
  induction ps generalizing p with
  | nil => rfl
  | cons q qs ih =>
    show (qs.map (fun y => y + 1)).foldl min (min (p + 1) (q + 1)) = qs.foldl min (min p q) + 1
    rw [min_add_add_right p q 1]
    exact ih (min p q)

theorem validPositions_cons_not_term (a : Char) (t : List Char)
    (ha : end_chars.contains a = false) :
    validPositions (a :: t) = (validPositions t).map (fun y => y + 1) := by
  have hane : ∀ c ∈ end_chars, a ≠ c := by
    intro c hc hac
    rw [hac] at ha
    have hnm : c ∉ end_chars := by simpa using ha
    exact hnm hc
  rw [validPositions, validPositions]
  have key : ∀ cs : List Char, (∀ c ∈ cs, a ≠ c) →
      ((cs.map (charFind (a :: t))).filter (fun p => p != -1)) =
        ((cs.map (charFind t)).filter (fun p => p != -1)).map (fun y => y + 1) := by
    intro cs hcs
    induction cs with
    | nil => rfl
    | cons c cs' ih =>
      have hac : a ≠ c := hcs c (List.mem_cons_self c cs')
      have hrest := ih (fun x hx => hcs x (List.mem_cons_of_mem c hx))
      rw [List.map_cons, List.map_cons, List.filter_cons, List.filter_cons]
      rw [charFind, if_neg hac]
      rcases charFind_dichotomy t c with h | h
      · rw [h]
        simp only [if_pos rfl]
        simp only [bne_self_eq_false, Bool.false_eq_true, if_false]
        exact hrest
      · have hne : charFind t c ≠ -1 := by omega
        have hne1 : charFind t c + 1 ≠ -1 := by omega
        rw [if_neg hne]
        simp only [bne_iff_ne, ne_eq, hne1, not_false_eq_true, if_true, hne, if_true]
        rw [List.map_cons]
        rw [hrest]
  exact key end_chars hane

theorem validPositions_cons_term (a : Char) (t : List Char)
    (ha : end_chars.contains a = true) : (0 : Int) ∈ validPositions (a :: t) := by
  have hmem : a ∈ end_chars := by simpa using ha
  rw [validPositions, List.mem_filter]
  constructor
  · apply List.mem_map.mpr
    refine ⟨a, hmem, ?_⟩
    simp [charFind]
  · decide

theorem validPositions_nil_iff (s : List Char) :
    validPositions s = [] ↔ firstTermIdx s = none := by
  induction s with
  | nil => decide
  | cons a t ih =>
    by_cases ha : end_chars.contains a = true
    · constructor
      · intro h
        have h0 := validPositions_cons_term a t ha
        rw [h] at h0
        simp at h0
      · intro h
        rw [firstTermIdx, if_pos ha] at h
        simp at h
    · have ha' : end_chars.contains a = false := by
        simp only [Bool.not_eq_true] at ha
        exact ha
      rw [validPositions_cons_not_term a t ha']
      rw [firstTermIdx, if_neg (by rw [ha']; exact Bool.false_ne_true)]
      rw [List.map_eq_nil_iff, Option.map_eq_none']
      exact ih

theorem find_sentence_end_eq (s : List Char) :
    find_sentence_end s =
      match firstTermIdx s with
      | some p => (p : Int)
      | none => if 50 < s.length then (s.length : Int) - 1 else -1 := by
  induction s with
  | nil => decide
  | cons a t ih =>
    by_cases ha : end_chars.contains a = true
    · have h0 := validPositions_cons_term a t ha
      have hnn := mem_validPositions_nonneg (a :: t)
      rw [firstTermIdx, if_pos ha]
      show find_sentence_end (a :: t) = ((0 : Nat) : Int)
      rw [find_sentence_end]
      split
      · rename_i heq
        rw [heq] at h0
        simp at h0
      · rename_i p ps heq
        rw [heq] at h0
        have hnn' : ∀ y ∈ p :: ps, (0 : Int) ≤ y := by
          intro y hy
          exact hnn y (by rw [heq]; exact hy)
        rw [foldl_min_eq_zero p ps h0 hnn']
        norm_num
    · have ha' : end_chars.contains a = false := by
        simp only [Bool.not_eq_true] at ha
        exact ha
      have hshift := validPositions_cons_not_term a t ha'
      rw [firstTermIdx, if_neg (by rw [ha']; exact Bool.false_ne_true)]
      rw [find_sentence_end, hshift]
      cases hv : validPositions t with
      | nil =>
        have hf : firstTermIdx t = none := (validPositions_nil_iff t).mp hv
        rw [hf]
        rfl
      | cons q qs =>
        cases hf : firstTermIdx t with
        | none =>
          have hcontra := (validPositions_nil_iff t).mpr hf
          rw [hv] at hcontra
          exact absurd hcontra (List.cons_ne_nil q qs)
        | some p =>
          have ih' : List.foldl min q qs = (p : Int) := by
            rw [find_sentence_end, hv, hf] at ih
            exact ih
          simp only [List.map_cons, Option.map_some']
          show (qs.map (fun y => y + 1)).foldl min (q + 1) = ((p + 1 : Nat) : Int)
          rw [foldl_min_map_add_one, ih']
          push_cast
          ring

end Segmenter

/-- C6 counterexample: the claim says a segment is returned only when a
terminator is found, but for a 52-character buffer containing no
terminator at all, `find_sentence_end` falls back to `len - 1 = 51 > 10`
and the segmenter emits the whole buffer as a segment. -/
theorem C6_counterexample_no_terminator :
    (Segmenter.segmenterFeed (List.replicate 52 'a')).isSome = true ∧
    (List.replicate 52 'a').all (fun c => !(Segmenter.end_chars.contains c)) = true := by
  decide

/-- C6 (amended): the segmenter locates the earliest occurrence of any
character of the fixed terminator set and returns a segment when that
position exceeds 10 (segment = prefix through the terminator, remainder =
rest); when no terminator is present it still returns the whole buffer as
a segment once the buffer exceeds 50 characters, and buffers otherwise.
In particular "Hi" yields no segment, and "This is a sentence. " yields
the sentence through the period with the trailing blank as remainder. -/
theorem C6_segmenter_feed (acc : List Char) :
    (∀ p : Nat, Segmenter.firstTermIdx acc = some p →
      Segmenter.segmenterFeed acc =
        if 10 < p then some (acc.take (p + 1), acc.drop (p + 1)) else none) ∧
    (Segmenter.firstTermIdx acc = none →
      Segmenter.segmenterFeed acc =
        if 50 < acc.length then some (acc, []) else none) ∧
    Segmenter.segmenterFeed "Hi".data = none ∧
    Segmenter.segmenterFeed "This is a sentence. ".data =
      some ("This is a sentence.".data, " ".data) := by
  refine ⟨?_, ?_, by decide, by decide⟩
  · intro p hp
    have hfse : Segmenter.find_sentence_end acc = (p : Int) := by
      rw [Segmenter.find_sentence_end_eq, hp]
    simp only [Segmenter.segmenterFeed, hfse]
    by_cases h10 : 10 < p
    · rw [if_pos (by exact_mod_cast h10), if_pos h10]
      have ht : ((p : Int) + 1).toNat = p + 1 := by omega
      rw [ht]
    · rw [if_neg (by exact_mod_cast h10), if_neg h10]
  · intro hnone
    have hfse : Segmenter.find_sentence_end acc =
        if 50 < acc.length then (acc.length : Int) - 1 else -1 := by
      rw [Segmenter.find_sentence_end_eq, hnone]
    simp only [Segmenter.segmenterFeed, hfse]
    by_cases h50 : 50 < acc.length
    · rw [if_pos h50, if_pos h50]
      rw [if_pos (by omega)]
      have ht : ((acc.length : Int) - 1 + 1).toNat = acc.length := by omega
      rw [ht, List.take_length, List.drop_length]
    · rw [if_neg h50, if_neg h50]
      rw [if_neg (by norm_num)]

/-- C6 witness: the amended theorem applied to the concrete buffer
"This is a sentence. ", whose earliest terminator sits at index 18. -/
theorem C6_segmenter_feed_witness :
    Segmenter.segmenterFeed "This is a sentence. ".data =
      (if 10 < 18 then
        some (("This is a sentence. ".data).take 19, ("This is a sentence. ".data).drop 19)
      else none) :=
  (C6_segmenter_feed "This is a sentence. ".data).1 18 (by decide)

namespace Retry

theorem retryLoop_log (rd : ℚ) (mr : Nat) (tokenOk : Nat → Bool)
    (call : Nat → CallResult) (fuel attempt : Nat) :
    (∀ a e w, StepLog.called a (.err e) (some w) ∈ (retryLoop rd mr tokenOk call attempt fuel).1 →
      e.rateLimitClass = true ∧ a < mr ∧ w = backoffWait rd a e) ∧
    (∀ a e, StepLog.called a (.err e) none ∈ (retryLoop rd mr tokenOk call attempt fuel).1 →
      (retryLoop rd mr tokenOk call attempt fuel).2 = .raisedErr e (a + 1)) := by
  induction fuel generalizing attempt with
  | zero =>
    constructor
    · intro a e w hmem
      simp [retryLoop] at hmem
    · intro a e hmem
      simp [retryLoop] at hmem
  | succ n ih =>
    rw [retryLoop]
    split
    · split
      · constructor
        · intro a e w hmem
          simp at hmem
        · intro a e hmem
          simp at hmem
      · rename_i e0 hcond
        split
        · rename_i hcond2
          constructor
          · intro a e w hmem
            rcases List.mem_cons.mp hmem with heq | hmem2
            · simp only [StepLog.called.injEq, CallResult.err.injEq, Option.some.injEq] at heq
              obtain ⟨rfl, rfl, rfl⟩ := heq
              exact ⟨hcond2.1, hcond2.2, rfl⟩
            · exact ((ih (attempt + 1)).1 a e w hmem2)
          · intro a e hmem
            rcases List.mem_cons.mp hmem with heq | hmem2
            · rw [StepLog.called.injEq] at heq
              exact absurd heq.2.2 (by simp)
            · exact (ih (attempt + 1)).2 a e hmem2
        · rename_i hcond2
          constructor
          · intro a e w hmem
            rcases List.mem_cons.mp hmem with heq | hmem2
            · rw [StepLog.called.injEq] at heq
              exact absurd heq.2.2 (by simp)
            · simp at hmem2
          · intro a e hmem
            rcases List.mem_cons.mp hmem with heq | hmem2
            · simp only [StepLog.called.injEq, CallResult.err.injEq] at heq
              obtain ⟨rfl, rfl, -⟩ := heq
              rfl
            · simp at hmem2
    · split
      · constructor
        · intro a e w hmem
          simp at hmem
        · intro a e hmem
          simp at hmem
      · constructor
        · intro a e w hmem
          rcases List.mem_cons.mp hmem with heq | hmem2
          · exact absurd heq (by simp)
          · exact (ih (attempt + 1)).1 a e w hmem2
        · intro a e hmem
          rcases List.mem_cons.mp hmem with heq | hmem2
          · exact absurd heq (by simp)
          · exact (ih (attempt + 1)).2 a e hmem2

end Retry

/-- C4 counterexample: the claim says the backoff delay for a
rate-limit-class error with no server-suggested wait equals
`max(base_delay, base_delay * 2^attempt)`, but with `base_delay = 1/2` the
code sleeps `max(1.0, 1/2 * 2^0) = 1`, not `max(1/2, 1/2) = 1/2`. -/
theorem C4_counterexample_backoff_floor :
    Retry.backoffWait (1 / 2) 0 ⟨true, none⟩ = 1 ∧
    (Retry.execute_with_retry (1 / 2) 1 (fun _ => true)
        (fun n => if n = 0 then .err ⟨true, none⟩ else .ok)).1 =
      [.called 0 (.err ⟨true, none⟩) (some (Retry.backoffWait (1 / 2) 0 ⟨true, none⟩)),
        .called 1 .ok none] ∧
    (1 : ℚ) ≠ max (1 / 2) ((1 / 2) * 2 ^ 0) := by
  refine ⟨?_, ?_, ?_⟩
  · rw [Retry.backoffWait]
    norm_num
  · rfl
  · norm_num

/-- C4 (amended): in `execute_with_retry`, when the wrapped operation
fails with a rate-limit-class error that is retried, the backoff delay
before the next attempt equals `suggested + 0.5` when the payload carries
a suggested wait and `max(1, base_delay * 2^attempt)` otherwise (the
floor is the constant 1 second, not `base_delay`); retries happen only
while `attempt < max_retries`; and any error that is not retried — in
particular every non-rate-limit-class error — is re-raised immediately
after its attempt, with no further attempt made. -/
theorem C4_backoff_delays (rd : ℚ) (mr : Nat) (tokenOk : Nat → Bool)
    (call : Nat → Retry.CallResult) :
    (∀ a e w, Retry.StepLog.called a (.err e) (some w) ∈
        (Retry.execute_with_retry rd mr tokenOk call).1 →
      e.rateLimitClass = true ∧ a < mr ∧
      w = (match e.suggestedWait with
        | some s => (s : ℚ) + 1 / 2
        | none => max 1 (rd * 2 ^ a))) ∧
    (∀ a e, Retry.StepLog.called a (.err e) none ∈
        (Retry.execute_with_retry rd mr tokenOk call).1 →
      (Retry.execute_with_retry rd mr tokenOk call).2 = .raisedErr e (a + 1)) := by
  have h := Retry.retryLoop_log rd mr tokenOk call (mr + 1) 0
  exact ⟨fun a e w hmem => (h.1 a e w hmem), fun a e hmem => h.2 a e hmem⟩

/-- C4 witness: the amended theorem applied to the concrete run of the
counterexample, confirming the 1-second floor for `base_delay = 1/2` at
attempt 0. -/
theorem C4_backoff_delays_witness :
    ((⟨true, none⟩ : Retry.ApiError).rateLimitClass = true ∧ 0 < 1 ∧
      Retry.backoffWait (1 / 2) 0 ⟨true, none⟩ =
        (match (⟨true, none⟩ : Retry.ApiError).suggestedWait with
          | some s => (s : ℚ) + 1 / 2
          | none => max 1 ((1 / 2) * 2 ^ 0))) :=
  (C4_backoff_delays (1 / 2) 1 (fun _ => true)
    (fun n => if n = 0 then .err ⟨true, none⟩ else .ok)).1 0 ⟨true, none⟩
    (Retry.backoffWait (1 / 2) 0 ⟨true, none⟩) (List.mem_cons_self _ _)

namespace TextSplit

/-- The sentence-terminator class of the split pattern
`(?<=[。！？.!?])` (text_cleaner.py line 80). -/
def isSentenceEndCh (c : Char) : Bool :=
  c == '。' || c == '！' || c == '？' || c == '.' || c == '!' || c == '?'

/-- The clause-separator class of the split pattern `(?<=[，,])`
(text_cleaner.py line 94). -/
def isCommaCh (c : Char) : Bool := c == '，' || c == ','

/-- The whitespace class stripped by Python `str.strip()`: the code
points for which `str.isspace()` holds — the ASCII whitespace characters
U+0009-U+000D and U+0020, the separators U+001C-U+001F, U+0085 (NEL),
U+00A0 (NBSP), U+1680, the Unicode space separators U+2000-U+200A,
U+2028, U+2029, U+202F, U+205F, and U+3000 (ideographic space). -/
def isSpaceCh (c : Char) : Bool :=
  decide (c.toNat ∈ ([0x9, 0xa, 0xb, 0xc, 0xd, 0x1c, 0x1d, 0x1e, 0x1f, 0x20, 0x85,
    0xa0, 0x1680, 0x2028, 0x2029, 0x202f, 0x205f, 0x3000] : List Nat)) ||
  decide (0x2000 ≤ c.toNat ∧ c.toNat ≤ 0x200a)

/-- Python `str.strip()`: drop leading and trailing whitespace. -/
def stripChars (l : List Char) : List Char :=
  ((l.dropWhile isSpaceCh).reverse.dropWhile isSpaceCh).reverse

/-- Python `re.split` with a zero-width lookbehind pattern: the text is
cut immediately after every character satisfying `p`; all characters are
preserved, and a trailing empty piece appears when the text ends with a
cut character. -/
def splitAfter (p : Char → Bool) : List Char → List (List Char)
  | [] => [[]]
  | c :: rest =>
    if p c then [c] :: splitAfter p rest
    else
      match splitAfter p rest with
      | [] => [[c]]
      | piece :: more => (c :: piece) :: more

/-- The hard fixed-length slicing `for i in range(0, len(part), max_length)`
(text_cleaner.py lines 108-110), fuelled by the list length for structural
termination; the entry point `chunksOf` supplies sufficient fuel whenever
`0 < n`. -/
def chunksOfAux (n : Nat) : Nat → List Char → List (List Char)
  | 0, l => if l = [] then [] else [l]
  | fuel + 1, l => if l = [] then [] else l.take n :: chunksOfAux n fuel (l.drop n)

def chunksOf (n : Nat) (l : List Char) : List (List Char) :=
  chunksOfAux n l.length l

/-- The flush step shared by the clause loop (text_cleaner.py lines
100-103): when the current paragraph plus the incoming part would exceed
`max_length`, the current paragraph is stripped and emitted and the
accumulator is cleared.  State is `(paragraphs, current_paragraph)`. -/
def flushIfLong (maxLen : Nat) (st : List (List Char) × List Char) (part : List Char) :
    List (List Char) × List Char :=
  if maxLen < st.2.length + part.length then
    (if st.2 = [] then st.1 else st.1 ++ [stripChars st.2], [])
  else st

/-- One iteration of the clause loop `for part in comma_parts`
(text_cleaner.py lines 95-112). -/
def processCommaPart (maxLen : Nat) (st : List (List Char) × List Char) (part : List Char) :
    List (List Char) × List Char :=
  if stripChars part = [] then st
  else
    if maxLen < part.length then
      ((flushIfLong maxLen st part).1 ++ (chunksOf maxLen part).map stripChars,
        (flushIfLong maxLen st part).2)
    else ((flushIfLong maxLen st part).1, (flushIfLong maxLen st part).2 ++ part)

/-- One iteration of the sentence loop `for sentence in sentences`
(text_cleaner.py lines 87-121). -/
def processSentence (maxLen : Nat) (st : List (List Char) × List Char) (sentence : List Char) :
    List (List Char) × List Char :=
  if stripChars sentence = [] then st
  else if maxLen < sentence.length then
    (splitAfter isCommaCh sentence).foldl (processCommaPart maxLen) st
  else if maxLen < st.2.length + sentence.length then
    (if st.2 = [] then st.1 else st.1 ++ [stripChars st.2], sentence)
  else (st.1, st.2 ++ sentence)

/-- `split_text_for_tts` (text_cleaner.py lines 69-127): short texts are
returned whole; otherwise the text is split after sentence terminators,
the sentence loop assembles paragraphs, and a final non-empty accumulator
is stripped and appended. -/
def split_text_for_tts (text : List Char) (maxLen : Nat) : List (List Char) :=
  if text.length ≤ maxLen then [text]
  else
    ((splitAfter isSentenceEndCh text).foldl (processSentence maxLen) ([], [])).1 ++
      (if ((splitAfter isSentenceEndCh text).foldl (processSentence maxLen) ([], [])).2 = []
        then []
        else [stripChars
          ((splitAfter isSentenceEndCh text).foldl (processSentence maxLen) ([], [])).2])

end TextSplit

/-- C7 counterexample: the claim says the in-order concatenation of
`split(text, max_length)` reconstructs the text exactly for every input,
but segment edges are whitespace-stripped: splitting `"a b"` with
`max_length = 2` yields `["a", "b"]`, whose concatenation `"ab"` drops
the interior space that fell on a slice boundary. -/
theorem C7_counterexample_whitespace_boundary :
    TextSplit.split_text_for_tts "a b".data 2 = ["a".data, "b".data] ∧
    (TextSplit.split_text_for_tts "a b".data 2).flatten ≠ "a b".data := by
  constructor
  · decide
  · decide

namespace TextSplit

/-- No character of `l` is whitespace. -/
def noSpace (l : List Char) : Prop := ∀ c ∈ l, isSpaceCh c = false

theorem splitAfter_ne_nil (p : Char → Bool) (l : List Char) : splitAfter p l ≠ [] := by
  cases l with
  | nil => simp [splitAfter]
  | cons c rest =>
    rw [splitAfter]
    split
    · simp
    · split
      · simp
      · simp

theorem splitAfter_flatten (p : Char → Bool) (l : List Char) :
    (splitAfter p l).flatten = l := by
  induction l with
  | nil => rfl
  | cons c rest ih =>
    rw [splitAfter]
    split
    · rw [List.flatten_cons, ih]
      rfl
    · split
      · rename_i heq
        exact absurd heq (splitAfter_ne_nil p rest)
      · rename_i piece more heq
        rw [List.flatten_cons]
        have : piece ++ more.flatten = rest := by
          have h2 := ih
          rw [heq, List.flatten_cons] at h2
          exact h2
        rw [List.cons_append, this]

theorem mem_of_mem_splitAfter (p : Char → Bool) (l piece : List Char) (c : Char)
    (hp : piece ∈ splitAfter p l) (hc : c ∈ piece) : c ∈ l := by
  have : c ∈ (splitAfter p l).flatten := List.mem_flatten.mpr ⟨piece, hp, hc⟩
  rw [splitAfter_flatten] at this
  exact this

theorem chunksOfAux_flatten (n : Nat) (hn : 0 < n) (fuel : Nat) :
    ∀ l : List Char, l.length ≤ fuel → (chunksOfAux n fuel l).flatten = l := by
  induction fuel with
  | zero =>
    intro l hl
    have : l = [] := List.eq_nil_of_length_eq_zero (by omega)
    rw [this]
    rfl
  | succ m ih =>
    intro l hl
    rw [chunksOfAux]
    split
    · rename_i h
      rw [h]
      rfl
    · rw [List.flatten_cons]
      rw [ih (l.drop n) (by rw [List.length_drop]; omega)]
      exact List.take_append_drop n l

theorem chunksOf_flatten (n : Nat) (l : List Char) (hn : 0 < n) :
    (chunksOf n l).flatten = l :=
  chunksOfAux_flatten n hn l.length l (le_refl _)

theorem chunksOfAux_length (n : Nat) (hn : 0 < n) (fuel : Nat) :
    ∀ l : List Char, l.length ≤ fuel → ∀ c ∈ chunksOfAux n fuel l, c.length ≤ n := by
  induction fuel with
  | zero =>
    intro l hl c hc
    have : l = [] := List.eq_nil_of_length_eq_zero (by omega)
    rw [this] at hc
    simp [chunksOfAux] at hc
  | succ m ih =>
    intro l hl c hc
    rw [chunksOfAux] at hc
    split at hc
    · simp at hc
    · rcases List.mem_cons.mp hc with rfl | hmem
      · rw [List.length_take]
        exact min_le_left _ _
      · exact ih (l.drop n) (by rw [List.length_drop]; omega) c hmem

theorem chunksOf_length (n : Nat) (hn : 0 < n) (l : List Char) :
    ∀ c ∈ chunksOf n l, c.length ≤ n :=
  chunksOfAux_length n hn l.length l (le_refl _)

theorem mem_of_mem_chunksOf (n : Nat) (hn : 0 < n) (l chunk : List Char) (c : Char)
    (hchunk : chunk ∈ chunksOf n l) (hc : c ∈ chunk) : c ∈ l := by
  have : c ∈ (chunksOf n l).flatten := List.mem_flatten.mpr ⟨chunk, hchunk, hc⟩
  rw [chunksOf_flatten n l hn] at this
  exact this

theorem stripChars_length_le (l : List Char) : (stripChars l).length ≤ l.length := by
  rw [stripChars, List.length_reverse]
  calc ((l.dropWhile isSpaceCh).reverse.dropWhile isSpaceCh).length
      ≤ (l.dropWhile isSpaceCh).reverse.length :=
        List.Sublist.length_le (List.dropWhile_sublist isSpaceCh)
  _ = (l.dropWhile isSpaceCh).length := List.length_reverse _
  _ ≤ l.length := List.Sublist.length_le (List.dropWhile_sublist isSpaceCh)

theorem dropWhile_eq_self_of_no_space (l : List Char)
    (h : ∀ c ∈ l, isSpaceCh c = false) : l.dropWhile isSpaceCh = l := by
  cases l with
  | nil => rfl
  | cons a t =>
    rw [List.dropWhile_cons, h a (List.mem_cons_self a t)]
    simp

theorem stripChars_eq_self (l : List Char) (h : noSpace l) : stripChars l = l := by
  rw [stripChars, dropWhile_eq_self_of_no_space l h]
  rw [dropWhile_eq_self_of_no_space l.reverse (fun c hc => h c (List.mem_reverse.mp hc))]
  exact List.reverse_reverse l

theorem map_stripChars_eq (L : List (List Char)) (h : ∀ l ∈ L, stripChars l = l) :
    L.map stripChars = L := by
  induction L with
  | nil => rfl
  | cons a t ih =>
    rw [List.map_cons, h a (List.mem_cons_self a t),
      ih (fun l hl => h l (List.mem_cons_of_mem a hl))]

end TextSplit

namespace TextSplit

/-- Every emitted paragraph is within the length bound, and so is the
accumulator. -/
def lenInv (maxLen : Nat) (st : List (List Char) × List Char) : Prop :=
  (∀ seg ∈ st.1, seg.length ≤ maxLen) ∧ st.2.length ≤ maxLen

theorem flushIfLong_lenInv (maxLen : Nat) (st : List (List Char) × List Char)
    (part : List Char) (hst : lenInv maxLen st) :
    lenInv maxLen (flushIfLong maxLen st part) ∧
      (part.length ≤ maxLen →
        (flushIfLong maxLen st part).2.length + part.length ≤ maxLen) := by
  rw [flushIfLong]
  split
  · rename_i hcond
    constructor
    · constructor
      · intro seg hseg
        split at hseg
        · exact hst.1 seg hseg
        · rcases List.mem_append.mp hseg with h | h
          · exact hst.1 seg h
          · rw [List.mem_singleton] at h
            rw [h]
            exact le_trans (stripChars_length_le st.2) hst.2
      · simp
    · intro hp
      simpa using hp
  · rename_i hcond
    constructor
    · exact hst
    · intro hp
      omega

theorem processCommaPart_lenInv (maxLen : Nat) (hml : 0 < maxLen)
    (st : List (List Char) × List Char) (part : List Char) (hst : lenInv maxLen st) :
    lenInv maxLen (processCommaPart maxLen st part) := by
  rw [processCommaPart]
  split
  · exact hst
  · have hflush := flushIfLong_lenInv maxLen st part hst
    split
    · rename_i hlong
      constructor
      · intro seg hseg
        rcases List.mem_append.mp hseg with h | h
        · exact hflush.1.1 seg h
        · obtain ⟨chunk, hchunk, hc⟩ := List.mem_map.mp h
          rw [← hc]
          exact le_trans (stripChars_length_le chunk) (chunksOf_length maxLen hml part chunk hchunk)
      · exact hflush.1.2
    · rename_i hshort
      constructor
      · exact hflush.1.1
      · rw [List.length_append]
        exact hflush.2 (by omega)

theorem foldl_processCommaPart_lenInv (maxLen : Nat) (hml : 0 < maxLen)
    (parts : List (List Char)) :
    ∀ st : List (List Char) × List Char, lenInv maxLen st →
      lenInv maxLen (parts.foldl (processCommaPart maxLen) st) := by
  induction parts with
  | nil => intro st hst; exact hst
  | cons p rest ih =>
    intro st hst
    exact ih (processCommaPart maxLen st p) (processCommaPart_lenInv maxLen hml st p hst)

theorem processSentence_lenInv (maxLen : Nat) (hml : 0 < maxLen)
    (st : List (List Char) × List Char) (sentence : List Char) (hst : lenInv maxLen st) :
    lenInv maxLen (processSentence maxLen st sentence) := by
  rw [processSentence]
  split
  · exact hst
  · split
    · exact foldl_processCommaPart_lenInv maxLen hml _ st hst
    · split
      · rename_i hfit
        constructor
        · intro seg hseg
          split at hseg
          · exact hst.1 seg hseg
          · rcases List.mem_append.mp hseg with h | h
            · exact hst.1 seg h
            · rw [List.mem_singleton] at h
              rw [h]
              exact le_trans (stripChars_length_le st.2) hst.2
        · show sentence.length ≤ maxLen
          omega
      · constructor
        · exact hst.1
        · rw [List.length_append]
          omega

theorem foldl_processSentence_lenInv (maxLen : Nat) (hml : 0 < maxLen)
    (sentences : List (List Char)) :
    ∀ st : List (List Char) × List Char, lenInv maxLen st →
      lenInv maxLen (sentences.foldl (processSentence maxLen) st) := by
  induction sentences with
  | nil => intro st hst; exact hst
  | cons s rest ih =>
    intro st hst
    exact ih (processSentence maxLen st s) (processSentence_lenInv maxLen hml st s hst)

end TextSplit

namespace TextSplit

theorem noSpace_nil : noSpace [] := fun c hc => absurd hc (List.not_mem_nil c)

theorem flushIfLong_concat (maxLen : Nat) (st : List (List Char) × List Char)
    (part : List Char) (h2 : noSpace st.2) :
    (flushIfLong maxLen st part).1.flatten ++ (flushIfLong maxLen st part).2 =
      st.1.flatten ++ st.2 ∧
    noSpace (flushIfLong maxLen st part).2 := by
  by_cases hcond : maxLen < st.2.length + part.length
  · rw [flushIfLong, if_pos hcond]
    constructor
    · by_cases hnil : st.2 = []
      · rw [if_pos hnil, hnil]
      · rw [if_neg hnil]
        dsimp only
        rw [List.flatten_append]
        simp [stripChars_eq_self st.2 h2]
    · exact noSpace_nil
  · rw [flushIfLong, if_neg hcond]
    exact ⟨rfl, h2⟩

theorem processCommaPart_concat (maxLen : Nat) (hml : 0 < maxLen)
    (st : List (List Char) × List Char) (part : List Char)
    (hp : noSpace part) (h2 : noSpace st.2) :
    (processCommaPart maxLen st part).1.flatten ++ (processCommaPart maxLen st part).2 =
      st.1.flatten ++ st.2 ++ part ∧
    noSpace (processCommaPart maxLen st part).2 := by
  rw [processCommaPart]
  split
  · rename_i hstrip
    have hpart : part = [] := by
      rw [← stripChars_eq_self part hp]
      exact hstrip
    subst hpart
    exact ⟨by simp, h2⟩
  · split
    · rename_i hlong
      have hcond : maxLen < st.2.length + part.length := by omega
      rw [flushIfLong, if_pos hcond]
      dsimp only
      have hchunks : (chunksOf maxLen part).map stripChars = chunksOf maxLen part :=
        map_stripChars_eq _ (fun l hl => stripChars_eq_self l
          (fun c hc => hp c (mem_of_mem_chunksOf maxLen hml part l c hl hc)))
      rw [hchunks, List.flatten_append, chunksOf_flatten maxLen part hml]
      constructor
      · by_cases hnil : st.2 = []
        · rw [if_pos hnil, hnil]
          simp
        · rw [if_neg hnil]
          rw [List.flatten_append]
          simp [stripChars_eq_self st.2 h2, List.append_assoc]
      · exact noSpace_nil
    · rename_i hshort
      have hflush := flushIfLong_concat maxLen st part h2
      constructor
      · show (flushIfLong maxLen st part).1.flatten ++
          ((flushIfLong maxLen st part).2 ++ part) = st.1.flatten ++ st.2 ++ part
        rw [← List.append_assoc, hflush.1]
      · intro c hc
        rcases List.mem_append.mp hc with h | h
        · exact hflush.2 c h
        · exact hp c h

theorem foldl_processCommaPart_concat (maxLen : Nat) (hml : 0 < maxLen)
    (parts : List (List Char)) :
    ∀ st : List (List Char) × List Char, (∀ p ∈ parts, noSpace p) → noSpace st.2 →
      ((parts.foldl (processCommaPart maxLen) st).1.flatten ++
          (parts.foldl (processCommaPart maxLen) st).2 =
        st.1.flatten ++ st.2 ++ parts.flatten) ∧
      noSpace (parts.foldl (processCommaPart maxLen) st).2 := by
  induction parts with
  | nil =>
    intro st _ h2
    exact ⟨by simp, h2⟩
  | cons p rest ih =>
    intro st hps h2
    have hstep := processCommaPart_concat maxLen hml st p
      (hps p (List.mem_cons_self p rest)) h2
    have hrest := ih (processCommaPart maxLen st p)
      (fun q hq => hps q (List.mem_cons_of_mem p hq)) hstep.2
    refine ⟨?_, hrest.2⟩
    calc (((p :: rest).foldl (processCommaPart maxLen) st).1.flatten ++
          ((p :: rest).foldl (processCommaPart maxLen) st).2)
        = (processCommaPart maxLen st p).1.flatten ++
            (processCommaPart maxLen st p).2 ++ rest.flatten := hrest.1
      _ = st.1.flatten ++ st.2 ++ p ++ rest.flatten := by rw [hstep.1]
      _ = st.1.flatten ++ st.2 ++ (p :: rest).flatten := by
          rw [List.flatten_cons, List.append_assoc]

theorem processSentence_concat (maxLen : Nat) (hml : 0 < maxLen)
    (st : List (List Char) × List Char) (sentence : List Char)
    (hs : noSpace sentence) (h2 : noSpace st.2) :
    (processSentence maxLen st sentence).1.flatten ++
        (processSentence maxLen st sentence).2 =
      st.1.flatten ++ st.2 ++ sentence ∧
    noSpace (processSentence maxLen st sentence).2 := by
  rw [processSentence]
  split
  · rename_i hstrip
    have hsen : sentence = [] := by
      rw [← stripChars_eq_self sentence hs]
      exact hstrip
    subst hsen
    exact ⟨by simp, h2⟩
  · split
    · have hparts : ∀ p ∈ splitAfter isCommaCh sentence, noSpace p :=
        fun p hp c hc => hs c (mem_of_mem_splitAfter isCommaCh sentence p c hp hc)
      have h := foldl_processCommaPart_concat maxLen hml
        (splitAfter isCommaCh sentence) st hparts h2
      rw [splitAfter_flatten] at h
      exact h
    · split
      · rename_i hfit
        refine ⟨?_, hs⟩
        by_cases hnil : st.2 = []
        · rw [if_pos hnil, hnil]
          dsimp only
          simp
        · rw [if_neg hnil]
          dsimp only
          rw [List.flatten_append]
          simp [stripChars_eq_self st.2 h2, List.append_assoc]
      · refine ⟨?_, ?_⟩
        · dsimp only
          rw [List.append_assoc]
        · intro c hc
          rcases List.mem_append.mp hc with h | h
          · exact h2 c h
          · exact hs c h

theorem foldl_processSentence_concat (maxLen : Nat) (hml : 0 < maxLen)
    (sentences : List (List Char)) :
    ∀ st : List (List Char) × List Char, (∀ s ∈ sentences, noSpace s) → noSpace st.2 →
      ((sentences.foldl (processSentence maxLen) st).1.flatten ++
          (sentences.foldl (processSentence maxLen) st).2 =
        st.1.flatten ++ st.2 ++ sentences.flatten) ∧
      noSpace (sentences.foldl (processSentence maxLen) st).2 := by
  induction sentences with
  | nil =>
    intro st _ h2
    exact ⟨by simp, h2⟩
  | cons s rest ih =>
    intro st hss h2
    have hstep := processSentence_concat maxLen hml st s
      (hss s (List.mem_cons_self s rest)) h2
    have hrest := ih (processSentence maxLen st s)
      (fun q hq => hss q (List.mem_cons_of_mem s hq)) hstep.2
    refine ⟨?_, hrest.2⟩
    calc (((s :: rest).foldl (processSentence maxLen) st).1.flatten ++
          ((s :: rest).foldl (processSentence maxLen) st).2)
        = (processSentence maxLen st s).1.flatten ++
            (processSentence maxLen st s).2 ++ rest.flatten := hrest.1
      _ = st.1.flatten ++ st.2 ++ s ++ rest.flatten := by rw [hstep.1]
      _ = st.1.flatten ++ st.2 ++ (s :: rest).flatten := by
          rw [List.flatten_cons, List.append_assoc]

end TextSplit

/-- C7 (amended): for every input text and every positive `max_length`,
`split(text, max_length)` returns an ordered list of segments each of
length ≤ `max_length`.  The in-order concatenation reconstructs the
original text exactly whenever the text contains no whitespace characters
(in general, whitespace falling on segment edges is trimmed away by the
per-segment `strip()`); in particular a 700-character whitespace-free
input with no punctuation and `max_length` 300 splits into segments all
≤ 300 characters whose concatenation equals the input. -/
theorem C7_split_segments (text : List Char) (maxLen : Nat) (hml : 0 < maxLen)
    (hns : TextSplit.noSpace text) :
    (∀ seg ∈ TextSplit.split_text_for_tts text maxLen, seg.length ≤ maxLen) ∧
    (TextSplit.split_text_for_tts text maxLen).flatten = text := by
  rw [TextSplit.split_text_for_tts]
  split
  · rename_i hshort
    constructor
    · intro seg hseg
      rw [List.mem_singleton] at hseg
      rw [hseg]
      exact hshort
    · simp
  · have hsent : ∀ s ∈ TextSplit.splitAfter TextSplit.isSentenceEndCh text,
        TextSplit.noSpace s :=
      fun s hsp c hc => hns c
        (TextSplit.mem_of_mem_splitAfter TextSplit.isSentenceEndCh text s c hsp hc)
    have hfold := TextSplit.foldl_processSentence_concat maxLen hml
      (TextSplit.splitAfter TextSplit.isSentenceEndCh text) ([], []) hsent
      TextSplit.noSpace_nil
    have hlen := TextSplit.foldl_processSentence_lenInv maxLen hml
      (TextSplit.splitAfter TextSplit.isSentenceEndCh text) ([], [])
      ⟨fun seg hseg => absurd hseg (List.not_mem_nil seg), by simp⟩
    rw [TextSplit.splitAfter_flatten] at hfold
    have hfold1 : ((TextSplit.splitAfter TextSplit.isSentenceEndCh text).foldl
          (TextSplit.processSentence maxLen) ([], [])).1.flatten ++
        ((TextSplit.splitAfter TextSplit.isSentenceEndCh text).foldl
          (TextSplit.processSentence maxLen) ([], [])).2 = text := by
      have h := hfold.1
      simpa using h
    constructor
    · intro seg hseg
      rcases List.mem_append.mp hseg with h | h
      · exact hlen.1 seg h
      · split at h
        · exact absurd h (List.not_mem_nil seg)
        · rw [List.mem_singleton] at h
          rw [h]
          exact le_trans (TextSplit.stripChars_length_le _) hlen.2
    · rw [List.flatten_append]
      split
      · rename_i hnil
        rw [hnil] at hfold1
        simpa using hfold1
      · rename_i hnil
        rw [TextSplit.stripChars_eq_self _ hfold.2]
        simpa using hfold1

/-- C7 witness: splitting 700 repeated letters with `max_length = 300`
yields segments all ≤ 300 characters whose concatenation is the input. -/
theorem C7_split_segments_witness :
    (∀ seg ∈ TextSplit.split_text_for_tts (List.replicate 700 'a') 300,
      seg.length ≤ 300) ∧
    (TextSplit.split_text_for_tts (List.replicate 700 'a') 300).flatten =
      List.replicate 700 'a' :=
  C7_split_segments (List.replicate 700 'a') 300 (by omega)
    (fun c hc => by rw [List.eq_of_mem_replicate hc]; rfl)

namespace AudioMgr

/-- State of `AudioManager` (audio_manager.py lines 15-27) plus two
bookkeeping fields: `taskRunning` records whether the consumer task is
alive (`self.task`), and `processed` is a history variable listing the
items whose simulated playback completed, in order. -/
structure AMState where
  queue : List String
  current_audio : Option String
  audio_start_time : ℚ
  audio_play_duration : ℚ
  is_playing : Bool
  taskRunning : Bool
  processed : List String
deriving DecidableEq

/-- `__init__`: empty queue, no current audio, not playing, no task. -/
def initState : AMState := ⟨[], none, 0, 0, false, false, []⟩

/-- `AudioManager.add_to_queue` (audio_manager.py lines 46-58): rejected
when the path is empty or the file does not exist (`fileExists` is the
`os.path.exists` result); otherwise the item is appended and the consumer
task is (idempotently) started.  Returns the new state and the boolean
result. -/
def add_to_queue (s : AMState) (path : String) (fileExists : Bool) : AMState × Bool :=
  if path = "" ∨ fileExists = false then (s, false)
  else (⟨s.queue ++ [path], s.current_audio, s.audio_start_time, s.audio_play_duration,
    s.is_playing, true, s.processed⟩, true)

/-- `AudioManager.clear_queue` (audio_manager.py lines 60-74): drain every
pending item without processing it, then reset the playback state to
idle. -/
def clear_queue (s : AMState) : AMState :=
  ⟨[], none, s.audio_start_time, s.audio_play_duration, false, s.taskRunning, s.processed⟩

/-- The snapshot returned by `AudioManager.get_status` (audio_manager.py
lines 76-95).  The idle branch of the source omits the detail fields; they
are modelled as `none`/`0` there. -/
structure AudioStatus where
  playing : Bool
  queue_size : Nat
  path : Option String
  elapsed : ℚ
  remaining : ℚ
  total : ℚ
deriving DecidableEq

/-- `AudioManager.get_status`: the detailed snapshot when an item is
current and playing, the idle snapshot otherwise. -/
def get_status (s : AMState) (now : ℚ) : AudioStatus :=
  if s.current_audio.isSome ∧ s.is_playing = true then
    ⟨s.is_playing, s.queue.length, s.current_audio, now - s.audio_start_time,
      max 0 (s.audio_play_duration - (now - s.audio_start_time)), s.audio_play_duration⟩
  else ⟨false, s.queue.length, none, 0, 0, 0⟩

/-- The playback-duration heuristic (audio_manager.py lines 124-128):
`estimate_chars = file_size / 50`, `play_time = max(2.0,
estimate_chars * 0.2)`. -/
def playDuration (fileSize : ℚ) : ℚ := max 2 (fileSize / 50 * (1 / 5))

/-- The first half of one `_audio_processor` iteration (audio_manager.py
lines 108-131): take the next queued item; skip it non-fatally when the
file no longer exists; otherwise mark it current and playing under the
lock.  When the queue is empty the consumer blocks and the state is
unchanged. -/
def processorBegin (s : AMState) (now fileSize : ℚ) (fileExists : Bool) : AMState :=
  match s.queue with
  | [] => s
  | path :: rest =>
    if fileExists = false then
      ⟨rest, s.current_audio, s.audio_start_time, s.audio_play_duration, s.is_playing,
        s.taskRunning, s.processed⟩
    else
      ⟨rest, some path, now, playDuration fileSize, true, s.taskRunning, s.processed⟩

/-- The second half of one `_audio_processor` iteration (audio_manager.py
lines 136-143): after the simulated-playback sleep, clear the current
item and record its completion. -/
def processorEnd (s : AMState) : AMState :=
  match s.current_audio with
  | some p => ⟨s.queue, none, s.audio_start_time, s.audio_play_duration, false,
      s.taskRunning, s.processed ++ [p]⟩
  | none => s

/-- The error-recovery branch of `_audio_processor` (audio_manager.py
lines 148-155): reset the current item and playing flag, process nothing. -/
def processorError (s : AMState) : AMState :=
  ⟨s.queue, none, s.audio_start_time, s.audio_play_duration, false, s.taskRunning,
    s.processed⟩

/-- `AudioManager.stop` (audio_manager.py lines 35-44): cancel the
consumer task. -/
def stopTask (s : AMState) : AMState :=
  ⟨s.queue, s.current_audio, s.audio_start_time, s.audio_play_duration, s.is_playing,
    false, s.processed⟩

/-- The operations that can act on the manager state.  `enqueue` and
`beginItem` carry the environment inputs of the corresponding source
code: the `os.path.exists` result, the clock reading, and the file
size. -/
inductive Op where
  | enqueue (path : String) (fileExists : Bool)
  | beginItem (now fileSize : ℚ) (fileExists : Bool)
  | endItem
  | errorRecover
  | clear
  | stop
deriving DecidableEq

def applyOp (s : AMState) : Op → AMState
  | .enqueue path fileExists => (add_to_queue s path fileExists).1
  | .beginItem now fileSize fileExists => processorBegin s now fileSize fileExists
  | .endItem => processorEnd s
  | .errorRecover => processorError s
  | .clear => clear_queue s
  | .stop => stopTask s

def runOps (s : AMState) : List Op → AMState
  | [] => s
  | op :: rest => runOps (applyOp s op) rest

/-- The playback-state invariant: the state holds at most one current
item by construction, and when no item is current the playing flag is
down. -/
def playInv (s : AMState) : Bool := s.current_audio.isSome || !s.is_playing

/-- How one operation can move an item between the queue, the current
slot, and the processed log. -/
theorem applyOp_track (s : AMState) (op : Op) (p : String) :
    (p ∈ (applyOp s op).processed → p ∈ s.processed ∨ s.current_audio = some p) ∧
    (p ∈ (applyOp s op).queue → p ∈ s.queue ∨ ∃ ex, op = Op.enqueue p ex) ∧
    ((applyOp s op).current_audio = some p → s.current_audio = some p ∨ p ∈ s.queue) := by
  cases op with
  | enqueue path fileExists =>
    rw [applyOp, add_to_queue]
    split
    · exact ⟨fun h => Or.inl h, fun h => Or.inl h, fun h => Or.inl h⟩
    · refine ⟨fun h => Or.inl h, fun h => ?_, fun h => Or.inl h⟩
      rcases List.mem_append.mp h with h2 | h2
      · exact Or.inl h2
      · rw [List.mem_singleton] at h2
        subst h2
        exact Or.inr ⟨fileExists, rfl⟩
  | beginItem now fileSize fileExists =>
    rw [applyOp, processorBegin]
    rcases hq : s.queue with _ | ⟨path, restq⟩
    · exact ⟨fun h => Or.inl h, fun h => Or.inl (hq ▸ h), fun h => Or.inl h⟩
    · dsimp only
      by_cases hex : fileExists = false
      · rw [if_pos hex]
        exact ⟨fun h => Or.inl h,
          fun h => Or.inl (List.mem_cons_of_mem path h),
          fun h => Or.inl h⟩
      · rw [if_neg hex]
        refine ⟨fun h => Or.inl h,
          fun h => Or.inl (List.mem_cons_of_mem path h),
          fun h => ?_⟩
        rw [Option.some.injEq] at h
        subst h
        exact Or.inr (List.mem_cons_self _ _)
  | endItem =>
    rw [applyOp, processorEnd]
    rcases hc : s.current_audio with _ | q
    · exact ⟨fun h => Or.inl h, fun h => Or.inl h, fun h => Or.inl (hc ▸ h)⟩
    · refine ⟨fun h => ?_, fun h => Or.inl h, fun h => absurd h (by simp)⟩
      rcases List.mem_append.mp h with h2 | h2
      · exact Or.inl h2
      · rw [List.mem_singleton] at h2
        subst h2
        exact Or.inr rfl
  | errorRecover =>
    exact ⟨fun h => Or.inl h, fun h => Or.inl h, fun h => absurd h (by simp [applyOp, processorError])⟩
  | clear =>
    exact ⟨fun h => Or.inl h,
      fun h => absurd h (List.not_mem_nil p),
      fun h => absurd h (by simp [applyOp, clear_queue])⟩
  | stop =>
    exact ⟨fun h => Or.inl h, fun h => Or.inl h, fun h => Or.inl h⟩

/-- An item processed after running `ops` from `s` was already processed,
was pending in the queue, was the current item, or was enqueued by one of
the operations. -/
theorem runOps_processed_sources (ops : List Op) :
    ∀ s : AMState, ∀ p, p ∈ (runOps s ops).processed →
      p ∈ s.processed ∨ p ∈ s.queue ∨ s.current_audio = some p ∨
        ∃ ex, Op.enqueue p ex ∈ ops := by
  induction ops with
  | nil =>
    intro s p hp
    exact Or.inl hp
  | cons op rest ih =>
    intro s p hp
    have h := ih (applyOp s op) p hp
    have tr := applyOp_track s op p
    rcases h with h | h | h | ⟨ex, hex⟩
    · rcases tr.1 h with h2 | h2
      · exact Or.inl h2
      · exact Or.inr (Or.inr (Or.inl h2))
    · rcases tr.2.1 h with h2 | ⟨ex, hop⟩
      · exact Or.inr (Or.inl h2)
      · exact Or.inr (Or.inr (Or.inr ⟨ex, by rw [hop]; exact List.mem_cons_self _ _⟩))
    · rcases tr.2.2 h with h2 | h2
      · exact Or.inr (Or.inr (Or.inl h2))
      · exact Or.inr (Or.inl h2)
    · exact Or.inr (Or.inr (Or.inr ⟨ex, List.mem_cons_of_mem _ hex⟩))

theorem applyOp_playInv (s : AMState) (op : Op) (hs : playInv s = true) :
    playInv (applyOp s op) = true := by
  cases op with
  | enqueue path fileExists =>
    rw [applyOp, add_to_queue]
    split
    · exact hs
    · exact hs
  | beginItem now fileSize fileExists =>
    rw [applyOp, processorBegin]
    rcases hq : s.queue with _ | ⟨path, restq⟩
    · exact hs
    · dsimp only
      by_cases hex : fileExists = false
      · rw [if_pos hex]
        exact hs
      · rw [if_neg hex]
        rfl
  | endItem =>
    rw [applyOp, processorEnd]
    rcases hc : s.current_audio with _ | q
    · exact hs
    · rfl
  | errorRecover => rfl
  | clear => rfl
  | stop =>
    rw [applyOp, stopTask]
    exact hs

theorem runOps_playInv (ops : List Op) :
    ∀ s : AMState, playInv s = true → playInv (runOps s ops) = true := by
  induction ops with
  | nil => intro s hs; exact hs
  | cons op rest ih =>
    intro s hs
    exact ih (applyOp s op) (applyOp_playInv s op hs)

end AudioMgr

/-- C8: after `clear()` completes the queue holds no pending items and the
playback state is idle — a subsequent `status()` reports queue length 0
and not playing — and the drained items are never processed: whatever
operations follow, every newly processed item stems from a later
enqueue. -/
theorem C8_clear_queue_idle (s : AudioMgr.AMState) (now : ℚ) (ops : List AudioMgr.Op) :
    (AudioMgr.clear_queue s).queue = [] ∧
    (AudioMgr.clear_queue s).current_audio = none ∧
    (AudioMgr.clear_queue s).is_playing = false ∧
    (AudioMgr.get_status (AudioMgr.clear_queue s) now).queue_size = 0 ∧
    (AudioMgr.get_status (AudioMgr.clear_queue s) now).playing = false ∧
    (AudioMgr.clear_queue s).processed = s.processed ∧
    (∀ p, p ∈ (AudioMgr.runOps (AudioMgr.clear_queue s) ops).processed →
      p ∈ s.processed ∨ ∃ ex, AudioMgr.Op.enqueue p ex ∈ ops) := by
  refine ⟨rfl, rfl, rfl, ?_, ?_, rfl, ?_⟩
  · rw [AudioMgr.get_status, if_neg (by simp [AudioMgr.clear_queue])]
    rfl
  · rw [AudioMgr.get_status, if_neg (by simp [AudioMgr.clear_queue])]
  · intro p hp
    have h := AudioMgr.runOps_processed_sources ops (AudioMgr.clear_queue s) p hp
    rcases h with h | h | h | h
    · exact Or.inl h
    · exact absurd h (List.not_mem_nil p)
    · exact absurd h (by simp [AudioMgr.clear_queue])
    · exact Or.inr h

/-- C8 witness: clearing a manager with two queued items, one current
item, and one previously processed item leaves status idle with an empty
queue, and the only processed items afterwards are the old ones. -/
theorem C8_clear_queue_idle_witness :
    (AudioMgr.get_status
        (AudioMgr.clear_queue ⟨["a", "b"], some "c", 0, 0, true, true, ["x"]⟩) 5).queue_size
      = 0 ∧
    (AudioMgr.get_status
        (AudioMgr.clear_queue ⟨["a", "b"], some "c", 0, 0, true, true, ["x"]⟩) 5).playing
      = false ∧
    ("x" ∈ (⟨["a", "b"], some "c", 0, 0, true, true, ["x"]⟩ : AudioMgr.AMState).processed ∨
      ∃ ex, AudioMgr.Op.enqueue "x" ex ∈ ([] : List AudioMgr.Op)) := by
  have h := C8_clear_queue_idle ⟨["a", "b"], some "c", 0, 0, true, true, ["x"]⟩ 5 []
  exact ⟨h.2.2.2.1, h.2.2.2.2.1, h.2.2.2.2.2.2 "x" (by decide)⟩

/-- C9: the playback state keeps, across every operation (consumer begin
and end steps, error recovery, clear, stop, enqueue), the invariant that
at most one item is playing — the state holds a single optional current
item — and that the absence of a current item implies `is_playing` is
false. -/
theorem C9_playback_invariant (ops : List AudioMgr.Op) (s : AudioMgr.AMState) :
    AudioMgr.playInv AudioMgr.initState = true ∧
    (AudioMgr.playInv s = true → AudioMgr.playInv (AudioMgr.runOps s ops) = true) ∧
    AudioMgr.playInv (AudioMgr.runOps AudioMgr.initState ops) = true ∧
    (AudioMgr.playInv s = true → s.current_audio = none → s.is_playing = false) := by
  refine ⟨rfl, AudioMgr.runOps_playInv ops s, AudioMgr.runOps_playInv ops AudioMgr.initState rfl, ?_⟩
  · intro h hc
    rw [AudioMgr.playInv, hc] at h
    simpa using h

/-- C9 witness: the invariant, instantiated on a run that begins and
finishes one item from the initial state. -/
theorem C9_playback_invariant_witness :
    AudioMgr.playInv (AudioMgr.runOps AudioMgr.initState
      [AudioMgr.Op.enqueue "a" true, AudioMgr.Op.beginItem 1 100 true,
        AudioMgr.Op.endItem]) = true :=
  (C9_playback_invariant
    [AudioMgr.Op.enqueue "a" true, AudioMgr.Op.beginItem 1 100 true, AudioMgr.Op.endItem]
    AudioMgr.initState).2.1 rfl

/-- C10: for every audio path that is empty or whose file does not exist
at enqueue time, `add_to_queue` returns `False` and leaves the manager
unchanged — nothing is appended and the consumer task is not started —
and it returns `True` exactly when the item was appended (and then the
task is running). -/
theorem C10_add_to_queue_guard (s : AudioMgr.AMState) (path : String) (fileExists : Bool) :
    ((path = "" ∨ fileExists = false) →
      AudioMgr.add_to_queue s path fileExists = (s, false)) ∧
    ((AudioMgr.add_to_queue s path fileExists).2 = true ↔
      path ≠ "" ∧ fileExists = true) ∧
    ((AudioMgr.add_to_queue s path fileExists).2 = true →
      (AudioMgr.add_to_queue s path fileExists).1.queue = s.queue ++ [path] ∧
      (AudioMgr.add_to_queue s path fileExists).1.taskRunning = true) ∧
    ((AudioMgr.add_to_queue s path fileExists).2 = false →
      (AudioMgr.add_to_queue s path fileExists).1 = s) := by
  rw [AudioMgr.add_to_queue]
  split
  · rename_i hcond
    refine ⟨fun _ => rfl, ?_, ?_, fun _ => rfl⟩
    · constructor
      · intro h
        simp at h
      · intro h
        rcases hcond with hc | hc
        · exact absurd hc h.1
        · rw [h.2] at hc
          simp at hc
    · intro h
      simp at h
  · rename_i hcond
    push_neg at hcond
    refine ⟨fun hor => absurd hor (by simp [hcond.1, hcond.2]), ?_, fun _ => ⟨rfl, rfl⟩, ?_⟩
    · constructor
      · intro _
        refine ⟨hcond.1, ?_⟩
        have h2 := hcond.2
        simpa using h2
      · intro _
        rfl
    · intro h
      simp at h

/-- C10 witness: enqueuing a non-empty existing path from the initial
state appends it and starts the consumer task. -/
theorem C10_add_to_queue_guard_witness :
    (AudioMgr.add_to_queue AudioMgr.initState "a.mp3" true).1.queue =
      AudioMgr.initState.queue ++ ["a.mp3"] ∧
    (AudioMgr.add_to_queue AudioMgr.initState "a.mp3" true).1.taskRunning = true :=
  (C10_add_to_queue_guard AudioMgr.initState "a.mp3" true).2.2.1 (by decide)

/-- C2 witness: the refill-cap conjunct of the invariant instantiated on
a concrete full bucket of capacity 2. -/
theorem C2_bucket_tokens_in_range_witness :
    ((⟨2, 1, 2, 0, 0⟩ : RateLimiter.Bucket).refill 1).tokens ≤
      (((⟨2, 1, 2, 0, 0⟩ : RateLimiter.Bucket).rate_limit : Nat) : Int) :=
  (C2_bucket_tokens_in_range 2 1 0 []).2.1 ⟨2, 1, 2, 0, 0⟩ 1 (by decide)
